import Mathlib

/-!
Verification of the timing and synchronization engine of the Karaoke-Player
repository.  The definitions below are a shallow embedding of:

* `karaoke_player.py` — `KaraokePlayer._generate_character_timings`,
  `KaraokePlayer._generate_word_timings` and the `Config` dataclass;
* `src/core/player.py` — `AudioPlayer` (the playback clock) and
  `LyricsSync` (cached character timeline + the polling cursor);
* `src/core/transcriber.py` — the `Word` dataclass.

Python floats are modelled as exact rationals (`ℚ`); the timing arithmetic
used by the program (addition, subtraction, division by a word length,
comparisons) is embedded verbatim over `ℚ`.  Word texts are modelled as
`List Char`; Python's `str.strip()` becomes `trim` below.
-/

/-- `Word` from `src/core/transcriber.py` (and the word dicts of
`karaoke_player.py`): a timestamped token.  `endTime` embeds the Python
field `end` (a Lean keyword).  `Word.duration()` is `endTime - start`. -/
structure Wd where
  text : List Char
  start : ℚ
  endTime : ℚ
deriving DecidableEq, Repr

/-- One timeline entry: the Python tuples `(content, timestamp, is_newline)`
appended by the timing generators. -/
structure Ev where
  content : List Char
  time : ℚ
  isNewline : Bool
deriving DecidableEq, Repr

/-- Python `str.strip()`: remove leading and trailing whitespace. -/
def trim (l : List Char) : List Char :=
  ((l.dropWhile Char.isWhitespace).reverse.dropWhile Char.isWhitespace).reverse

/-- The loop `for char_idx, char in enumerate(word_text)` of the character
generators: one event per character at `start + char_idx * char_duration`. -/
def charEvts (wstart cdur : ℚ) : ℕ → List Char → List Ev
  | _, [] => []
  | k, c :: cs => ⟨[c], wstart + (k : ℚ) * cdur, false⟩ :: charEvts wstart cdur (k + 1) cs

/-- The fields of the `Config` dataclass of `karaoke_player.py` that the
timing generators read: `new_line_threshold` and `max_line_length`. -/
structure KCfg where
  newLineThreshold : ℚ
  maxLineLength : ℤ
deriving DecidableEq, Repr

/-- The `should_break` decision of `_generate_character_timings`
(karaoke_player.py lines 322-333): hard pause, soft pause on a long line,
forced break on `current_line_length > max_line_length`. -/
def shouldBreakChar (cfg : KCfg) (first : Bool) (gap : ℚ) (lineLen : ℕ) : Bool :=
  !first &&
    (decide (cfg.newLineThreshold < gap) ||
     (decide ((3 : ℚ)/10 < gap) && decide ((cfg.maxLineLength : ℚ) * (7/10) < (lineLen : ℚ))) ||
     decide (cfg.maxLineLength < (lineLen : ℤ)))

/-- Loop body of `KaraokePlayer._generate_character_timings`
(karaoke_player.py lines 308-356).  `first` is `word_idx == 0`; `lastEnd`
is `last_word_end`; `lineLen` is `current_line_length`.  The unclamped
`word_start - 0.05` newline timestamp, the `len(word_text) > 0` guard
around the division, and the trailing-space rule
(`word_idx < len(words) - 1`) are all taken from the source. -/
def goChar (cfg : KCfg) : Bool → ℚ → ℕ → List Wd → List Ev
  | _, _, _, [] => []
  | first, lastEnd, lineLen, w :: rest =>
    let wtext := trim w.text
    let sb : Bool := shouldBreakChar cfg first (if first then 0 else w.start - lastEnd) lineLen
    let brk : List Ev := if sb then [⟨['\n'], w.start - 1/20, true⟩] else []
    let lineLen1 : ℕ := if sb then 0 else lineLen
    if wtext.length = 0 then
      brk ++ goChar cfg false w.endTime lineLen1 rest
    else
      let cdur : ℚ := (w.endTime - w.start) / (wtext.length : ℚ)
      let sp : List Ev := if rest = [] then [] else [⟨[' '], w.endTime, false⟩]
      let lineLen2 : ℕ := lineLen1 + wtext.length + (if rest = [] then 0 else 1)
      brk ++ charEvts w.start cdur 0 wtext ++ sp ++ goChar cfg false w.endTime lineLen2 rest

/-- `KaraokePlayer._generate_character_timings`: initial state
`last_word_end = 0.0`, `current_line_length = 0`, first word. -/
def generateCharacterTimings (cfg : KCfg) (ws : List Wd) : List Ev :=
  goChar cfg true 0 0 ws

/-- The `should_break` decision of `_generate_word_timings`
(karaoke_player.py lines 372-383): as for characters, except the forced
test counts the incoming word, `current_line_length + len(word_text)`. -/
def shouldBreakWord (cfg : KCfg) (first : Bool) (gap : ℚ) (lineLen textLen : ℕ) : Bool :=
  !first &&
    (decide (cfg.newLineThreshold < gap) ||
     (decide ((3 : ℚ)/10 < gap) && decide ((cfg.maxLineLength : ℚ) * (7/10) < (lineLen : ℚ))) ||
     decide (cfg.maxLineLength < (lineLen : ℤ) + (textLen : ℤ)))

/-- Loop body of `KaraokePlayer._generate_word_timings`
(karaoke_player.py lines 358-395); emits `(word_text + ' ', word_start,
False)` for each word with nonempty trimmed text. -/
def goWord (cfg : KCfg) : Bool → ℚ → ℕ → List Wd → List Ev
  | _, _, _, [] => []
  | first, lastEnd, lineLen, w :: rest =>
    let wtext := trim w.text
    let sb : Bool :=
      shouldBreakWord cfg first (if first then 0 else w.start - lastEnd) lineLen wtext.length
    let brk : List Ev := if sb then [⟨['\n'], w.start - 1/20, true⟩] else []
    let lineLen1 : ℕ := if sb then 0 else lineLen
    if wtext.length = 0 then
      brk ++ goWord cfg false w.endTime lineLen1 rest
    else
      brk ++ [⟨wtext ++ [' '], w.start, false⟩] ++
        goWord cfg false w.endTime (lineLen1 + wtext.length + 1) rest

/-- `KaraokePlayer._generate_word_timings`. -/
def generateWordTimings (cfg : KCfg) (ws : List Wd) : List Ev :=
  goWord cfg true 0 0 ws

/-- Loop body of `LyricsSync._generate_character_timings`
(src/core/player.py lines 162-199): only the hard-pause break
(`gap > new_line_threshold`), no trimming, no line-length accounting. -/
def lsGo (thr : ℚ) : Bool → ℚ → List Wd → List Ev
  | _, _, [] => []
  | first, lastEnd, w :: rest =>
    let brk : List Ev :=
      if (!first) && decide (thr < w.start - lastEnd) then
        [⟨['\n'], w.start - 1/20, true⟩]
      else []
    if w.text.length = 0 then
      brk ++ lsGo thr false w.endTime rest
    else
      let cdur : ℚ := (w.endTime - w.start) / (w.text.length : ℚ)
      let sp : List Ev := if rest = [] then [] else [⟨[' '], w.endTime, false⟩]
      brk ++ charEvts w.start cdur 0 w.text ++ sp ++ lsGo thr false w.endTime rest

/-- Pure core of `LyricsSync._generate_character_timings` (cache aside). -/
def lsGenerateCharacterTimings (thr : ℚ) (ws : List Wd) : List Ev :=
  lsGo thr true 0 ws

example :
    generateCharacterTimings ⟨1/2, 50⟩
      [⟨['H','e','l','l','o'], 0, 1/2⟩, ⟨['w','o','r','l','d'], 3/5, 1⟩] =
    [⟨['H'], 0, false⟩, ⟨['e'], 1/10, false⟩, ⟨['l'], 2/10, false⟩,
     ⟨['l'], 3/10, false⟩, ⟨['o'], 4/10, false⟩, ⟨[' '], 1/2, false⟩,
     ⟨['w'], 3/5, false⟩, ⟨['o'], 17/25, false⟩, ⟨['r'], 19/25, false⟩,
     ⟨['l'], 21/25, false⟩, ⟨['d'], 23/25, false⟩] := by
  norm_num +decide [generateCharacterTimings, goChar, shouldBreakChar, charEvts, trim,
    List.dropWhile, Char.isWhitespace]

example :
    generateCharacterTimings ⟨1/20, 50⟩
      [⟨['H','i'], 0, 1/2⟩, ⟨['y','o'], 3/5, 1⟩] =
    [⟨['H'], 0, false⟩, ⟨['i'], 1/4, false⟩, ⟨[' '], 1/2, false⟩,
     ⟨['\n'], 11/20, true⟩, ⟨['y'], 3/5, false⟩, ⟨['o'], 4/5, false⟩] := by
  norm_num +decide [generateCharacterTimings, goChar, shouldBreakChar, charEvts, trim,
    List.dropWhile, Char.isWhitespace]

/-- `PlaybackState` from src/core/player.py. -/
inductive PBState
  | stopped
  | playing
  | paused
  | finished
deriving DecidableEq, Repr

/-- The time-accounting fields of `AudioPlayer` (src/core/player.py):
`state`, `_start_time`, `_pause_time`, `_paused_duration`.  The pygame
mixer calls and logging are external effects with no bearing on these
fields and are not modelled. -/
structure ClockState where
  state : PBState
  startTime : Option ℚ
  pauseTime : Option ℚ
  pausedDuration : ℚ
deriving DecidableEq, Repr

/-- `AudioPlayer.__init__`: stopped, no timers. -/
def clockInit : ClockState :=
  ⟨.stopped, none, none, 0⟩

/-- `AudioPlayer.play` (lines 79-97), with `now` standing for
`time.time()`.  From `PAUSED` it adds `now - self._pause_time` to
`_paused_duration`; from any other state it sets `_start_time = now` and
resets `_paused_duration`; either way the state becomes `PLAYING`. -/
def play (now : ℚ) (s : ClockState) : ClockState :=
  if s.state = .paused then
    { s with pausedDuration := s.pausedDuration + (now - s.pauseTime.getD 0),
             state := .playing }
  else
    { s with startTime := some now, pausedDuration := 0, state := .playing }

/-- `AudioPlayer.pause` (lines 99-105): records `_pause_time = now` and
moves to `PAUSED` only when currently `PLAYING`; otherwise does nothing. -/
def pause (now : ℚ) (s : ClockState) : ClockState :=
  if s.state = .playing then
    { s with pauseTime := some now, state := .paused }
  else s

/-- `AudioPlayer.stop` (lines 107-115): clears all timers. -/
def stop (_ : ClockState) : ClockState :=
  ⟨.stopped, none, none, 0⟩

/-- `AudioPlayer.get_position` (lines 117-126) with `timing_offset` passed
explicitly (it is read from `self.config.timing_offset`). -/
def getPosition (offset now : ℚ) (s : ClockState) : ℚ :=
  if s.state = .playing then
    match s.startTime with
    | some st => now - st - s.pausedDuration + offset
    | none => 0
  else 0

/-- Clock states reachable from `clockInit` through the `AudioPlayer`
mutators. -/
inductive ClockReachable : ClockState → Prop
  | init : ClockReachable clockInit
  | play (now : ℚ) {s : ClockState} : ClockReachable s → ClockReachable (play now s)
  | pause (now : ℚ) {s : ClockState} : ClockReachable s → ClockReachable (pause now s)
  | stop {s : ClockState} : ClockReachable s → ClockReachable (stop s)

/-- `DisplayMode` from src/core/config.py (the two modes
`LyricsSync.get_current_items` branches on). -/
inductive DispMode
  | character
  | word
deriving DecidableEq, Repr

/-- The display configuration fields read by `LyricsSync`:
`display_config.mode` and `display_config.new_line_threshold`. -/
structure SyncCfg where
  mode : DispMode
  newLineThreshold : ℚ
deriving DecidableEq, Repr

/-- The mutable state of a `LyricsSync` instance: its configuration, the
transcription's word list, `current_index` and the `_character_timings`
cache. -/
structure SyncState where
  config : SyncCfg
  words : List Wd
  index : ℕ
  cache : Option (List Ev)
deriving DecidableEq, Repr

/-- `LyricsSync.__init__`. -/
def syncInit (cfg : SyncCfg) (ws : List Wd) : SyncState :=
  ⟨cfg, ws, 0, none⟩

/-- `LyricsSync._generate_character_timings` (lines 162-199): return the
cached list if present, otherwise build it and store it. -/
def syncGenerateCharacterTimings (s : SyncState) : List Ev × SyncState :=
  match s.cache with
  | some t => (t, s)
  | none =>
    let t := lsGenerateCharacterTimings s.config.newLineThreshold s.words
    (t, { s with cache := some t })

/-- The character-mode `while` loop of `LyricsSync.get_current_items`
(lines 216-223), run on the timeline suffix starting at `current_index`:
consume entries while `position >= char_time`, returning the
`(char, is_newline)` items and the number of consumed entries. -/
def collect : List Ev → ℚ → List (List Char × Bool) × ℕ
  | [], _ => ([], 0)
  | e :: rest, p =>
    if e.time ≤ p then
      let r := collect rest p
      ((e.content, e.isNewline) :: r.1, r.2 + 1)
    else ([], 0)

/-- The word-mode `while` loop of `LyricsSync.get_current_items`
(lines 226-240), run on the word suffix starting at `current_index`;
`prev` is `words[current_index - 1]` (absent when the index is 0). -/
def collectW (thr : ℚ) : Option Wd → List Wd → ℚ → List (List Char × Bool) × ℕ
  | _, [], _ => ([], 0)
  | prev, w :: rest, p =>
    if w.start ≤ p then
      let nl : List (List Char × Bool) :=
        match prev with
        | some pw => if thr < w.start - pw.endTime then [(['\n'], true)] else []
        | none => []
      let r := collectW thr (some w) rest p
      (nl ++ (w.text ++ [' '], false) :: r.1, r.2 + 1)
    else ([], 0)

/-- `LyricsSync.get_current_items` (lines 201-242). -/
def getCurrentItems (s : SyncState) (p : ℚ) : List (List Char × Bool) × SyncState :=
  match s.config.mode with
  | .character =>
    let r0 := syncGenerateCharacterTimings s
    let r := collect (r0.1.drop r0.2.index) p
    (r.1, { r0.2 with index := r0.2.index + r.2 })
  | .word =>
    let prev : Option Wd := if s.index = 0 then none else (s.words.drop (s.index - 1)).head?
    let r := collectW s.config.newLineThreshold prev (s.words.drop s.index) p
    (r.1, { s with index := s.index + r.2 })

/-- `LyricsSync.reset` (lines 244-246): `current_index = 0` only. -/
def syncReset (s : SyncState) : SyncState :=
  { s with index := 0 }

/-- A sequence of `get_current_items` calls: list of returned batches and
the final state. -/
def pollRun (s : SyncState) : List ℚ → List (List (List Char × Bool)) × SyncState
  | [] => ([], s)
  | p :: ps =>
    let r := getCurrentItems s p
    let rr := pollRun r.2 ps
    (r.1 :: rr.1, rr.2)

/-- Reachability invariant: whenever the clock is `playing` or `paused`,
`_start_time` is set (so `get_position` uses the elapsed-time formula). -/
lemma clockReachable_startTime {s : ClockState} (h : ClockReachable s) :
    s.state = PBState.playing ∨ s.state = PBState.paused →
    ∃ st, s.startTime = some st := by
  induction h with
  | init => intro hs; simp [clockInit] at hs
  | @play now s h ih =>
    intro _
    by_cases hp : s.state = PBState.paused
    · rw [play, if_pos hp]
      exact ih (Or.inr hp)
    · rw [play, if_neg hp]
      exact ⟨now, rfl⟩
  | @pause now s h ih =>
    intro hs
    by_cases hp : s.state = PBState.playing
    · rw [pause, if_pos hp]
      exact ih (Or.inl hp)
    · rw [pause, if_neg hp]
      rw [pause, if_neg hp] at hs
      exact ih hs
  | stop h ih => intro hs; simp [stop] at hs

/-- C3 counterexample: `play()` while already `PLAYING` does not fail and
does not leave the state unchanged — it restarts the clock
(`_start_time := now`, `_paused_duration := 0`); and `pause()` while
`STOPPED` raises nothing and is a silent no-op.  (No
`InvalidTransitionError` exists in src/core/exceptions.py.) -/
theorem C3_counterexample :
    (play 0 clockInit).state = PBState.playing ∧
    (play 0 clockInit).startTime = some 0 ∧
    play 1 (play 0 clockInit) ≠ play 0 clockInit ∧
    (play 1 (play 0 clockInit)).startTime = some 1 ∧
    pause 1 clockInit = clockInit := by
  simp [play, pause, clockInit]

/-- C3 (amended): `play()` while `PLAYING` succeeds and restarts the clock
(`_start_time = now`, `_paused_duration = 0`, state stays `PLAYING`);
`pause()` from any state other than `PLAYING` is a silent no-op that
leaves every field unchanged; neither call raises. -/
theorem C3_invalid_transitions_are_silent :
    (∀ (now : ℚ) (s : ClockState), s.state = PBState.playing →
      play now s =
        { s with startTime := some now, pausedDuration := 0, state := .playing }) ∧
    (∀ (now : ℚ) (s : ClockState), s.state ≠ PBState.playing → pause now s = s) := by
  constructor
  · intro now s h
    rw [play, if_neg (by rw [h]; intro hc; cases hc)]
  · intro now s h
    rw [pause, if_neg h]

/-- C3 witness: the amended statement at concrete clock states. -/
theorem C3_invalid_transitions_are_silent_witness :
    play 2 ⟨PBState.playing, some 0, none, 0⟩ = ⟨PBState.playing, some 2, none, 0⟩ ∧
    pause 2 ⟨PBState.stopped, none, none, 0⟩ = ⟨PBState.stopped, none, none, 0⟩ := by
  constructor
  · exact C3_invalid_transitions_are_silent.1 2 ⟨PBState.playing, some 0, none, 0⟩ rfl
  · exact C3_invalid_transitions_are_silent.2 2 ⟨PBState.stopped, none, none, 0⟩ (by simp)

/-- C4: `get_position` returns 0 in every state other than `PLAYING`; in a
reachable `PLAYING` state it returns
`now - start_time - paused_duration + timing_offset`; and in the
play(0)/pause(2)/play(5) scenario a read at wall-clock 6 reports
`3 + offset`. -/
theorem C4_get_position :
    (∀ (offset now : ℚ) (s : ClockState), s.state ≠ PBState.playing →
        getPosition offset now s = 0) ∧
    (∀ (offset now : ℚ) (s : ClockState), ClockReachable s →
        s.state = PBState.playing →
        getPosition offset now s =
          now - s.startTime.getD 0 - s.pausedDuration + offset) ∧
    (∀ offset : ℚ,
        getPosition offset 6 (play 5 (pause 2 (play 0 clockInit))) = 3 + offset) := by
  refine ⟨?_, ?_, ?_⟩
  · intro offset now s h
    rw [getPosition, if_neg h]
  · intro offset now s hr hs
    obtain ⟨st, hst⟩ := clockReachable_startTime hr (Or.inl hs)
    rw [getPosition, if_pos hs, hst]
    simp
  · intro offset
    simp [play, pause, getPosition, clockInit]
    ring

/-- C4 witness: concrete reads discharging each hypothesis. -/
theorem C4_get_position_witness :
    getPosition (1/2) 7 ⟨PBState.paused, some 1, some 2, 0⟩ = 0 ∧
    getPosition (1/2) 7 (play 0 clockInit) = 15/2 ∧
    getPosition (1/2) 6 (play 5 (pause 2 (play 0 clockInit))) = 7/2 := by
  refine ⟨C4_get_position.1 (1/2) 7 _ (by simp), ?_, ?_⟩
  · have h := C4_get_position.2.1 (1/2) 7 (play 0 clockInit)
      (ClockReachable.play 0 ClockReachable.init) (by simp [play, clockInit])
    rw [h]
    simp [play, clockInit]
    norm_num
  · have h := C4_get_position.2.2 (1/2)
    rw [h]
    norm_num

/-- Character events produced by the enumeration loop are content events. -/
lemma charEvts_isNewline_false {wstart cdur : ℚ} :
    ∀ (k : ℕ) (cs : List Char) (e : Ev), e ∈ charEvts wstart cdur k cs →
      e.isNewline = false := by
  intro k cs
  induction cs generalizing k with
  | nil => intro e h; simp [charEvts] at h
  | cons c cs ih =>
    intro e h
    rw [charEvts] at h
    rcases List.mem_cons.mp h with h | h
    · rw [h]
    · exact ih _ e h

/-- Every newline event emitted by the character generator of
karaoke_player.py carries the timestamp `start - 0.05` of some input
word. -/
lemma goChar_newline_eq_start_sub {cfg : KCfg} :
    ∀ (ws : List Wd) (first : Bool) (lastEnd : ℚ) (lineLen : ℕ) (e : Ev),
      e ∈ goChar cfg first lastEnd lineLen ws → e.isNewline = true →
      ∃ w ∈ ws, e.time = w.start - 1/20 := by
  intro ws
  induction ws with
  | nil => intro first lastEnd lineLen e he _; simp [goChar] at he
  | cons w rest ih =>
    intro first lastEnd lineLen e he hn
    rw [goChar] at he
    by_cases hw : (trim w.text).length = 0
    · rw [if_pos hw] at he
      rcases List.mem_append.mp he with h | h
      · by_cases hsb : shouldBreakChar cfg first (if first then 0 else w.start - lastEnd)
            lineLen = true
        · rw [if_pos hsb] at h
          rcases List.mem_singleton.mp h with rfl
          exact ⟨w, List.mem_cons_self w rest, rfl⟩
        · rw [if_neg hsb] at h
          simp at h
      · obtain ⟨w', hw', ht⟩ := ih false w.endTime _ e h hn
        exact ⟨w', List.mem_cons_of_mem w hw', ht⟩
    · rw [if_neg hw] at he
      rcases List.mem_append.mp he with he | h
      · rcases List.mem_append.mp he with he | h
        · rcases List.mem_append.mp he with h | h
          · by_cases hsb : shouldBreakChar cfg first (if first then 0 else w.start - lastEnd)
                lineLen = true
            · rw [if_pos hsb] at h
              rcases List.mem_singleton.mp h with rfl
              exact ⟨w, List.mem_cons_self w rest, rfl⟩
            · rw [if_neg hsb] at h
              simp at h
          · rw [charEvts_isNewline_false _ _ e h] at hn
            cases hn
        · by_cases hr : rest = []
          · rw [if_pos hr] at h
            simp at h
          · rw [if_neg hr] at h
            rcases List.mem_singleton.mp h with rfl
            cases hn
      · obtain ⟨w', hw', ht⟩ := ih false w.endTime _ e h hn
        exact ⟨w', List.mem_cons_of_mem w hw', ht⟩

/-- Same for the plain character generator of `LyricsSync`
(src/core/player.py). -/
lemma lsGo_newline_eq_start_sub {thr : ℚ} :
    ∀ (ws : List Wd) (first : Bool) (lastEnd : ℚ) (e : Ev),
      e ∈ lsGo thr first lastEnd ws → e.isNewline = true →
      ∃ w ∈ ws, e.time = w.start - 1/20 := by
  intro ws
  induction ws with
  | nil => intro first lastEnd e he _; simp [lsGo] at he
  | cons w rest ih =>
    intro first lastEnd e he hn
    rw [lsGo] at he
    have hbrk : ∀ h : e ∈ (if (!first) && decide (thr < w.start - lastEnd) then
        ([⟨['\n'], w.start - 1/20, true⟩] : List Ev) else []),
        ∃ w' ∈ w :: rest, e.time = w'.start - 1/20 := by
      intro h
      by_cases hc : ((!first) && decide (thr < w.start - lastEnd)) = true
      · rw [if_pos hc] at h
        rcases List.mem_singleton.mp h with rfl
        exact ⟨w, List.mem_cons_self w rest, rfl⟩
      · rw [if_neg hc] at h
        simp at h
    by_cases hw : w.text.length = 0
    · rw [if_pos hw] at he
      rcases List.mem_append.mp he with h | h
      · exact hbrk h
      · obtain ⟨w', hw', ht⟩ := ih false w.endTime e h hn
        exact ⟨w', List.mem_cons_of_mem w hw', ht⟩
    · rw [if_neg hw] at he
      rcases List.mem_append.mp he with he | h
      · rcases List.mem_append.mp he with he | h
        · rcases List.mem_append.mp he with h | h
          · exact hbrk h
          · rw [charEvts_isNewline_false _ _ e h] at hn
            cases hn
        · by_cases hr : rest = []
          · rw [if_pos hr] at h
            simp at h
          · rw [if_neg hr] at h
            rcases List.mem_singleton.mp h with rfl
            cases hn
      · obtain ⟨w', hw', ht⟩ := ih false w.endTime e h hn
        exact ⟨w', List.mem_cons_of_mem w hw', ht⟩

/-- C5 counterexample: with threshold 0.001 and words at 0 and 0.01 the
character generator emits a Newline stamped `0.01 - 0.05 = -0.04 < 0` —
the timestamp is not clamped at 0. -/
theorem C5_counterexample :
    generateCharacterTimings ⟨1/1000, 50⟩
        [⟨['a'], 0, 0⟩, ⟨['b'], 1/100, 1/5⟩] =
      [⟨['a'], 0, false⟩, ⟨[' '], 0, false⟩, ⟨['\n'], -(1/25), true⟩,
       ⟨['b'], 1/100, false⟩] ∧
    (-(1/25) : ℚ) < 0 := by
  constructor
  · norm_num +decide [generateCharacterTimings, goChar, shouldBreakChar, charEvts, trim,
      List.dropWhile, Char.isWhitespace]
  · norm_num

/-- C5 (amended): every Newline event appended by either character
generator is timestamped exactly `word.start - 0.05` for the word that
triggered it, with no lower clamp at 0 (so it is negative whenever that
word starts before 0.05). -/
theorem C5_newline_timestamp :
    (∀ (cfg : KCfg) (ws : List Wd) (e : Ev),
       e ∈ generateCharacterTimings cfg ws → e.isNewline = true →
       ∃ w ∈ ws, e.time = w.start - 1/20) ∧
    (∀ (thr : ℚ) (ws : List Wd) (e : Ev),
       e ∈ lsGenerateCharacterTimings thr ws → e.isNewline = true →
       ∃ w ∈ ws, e.time = w.start - 1/20) := by
  constructor
  · intro cfg ws e he hn
    exact goChar_newline_eq_start_sub ws true 0 0 e he hn
  · intro thr ws e he hn
    exact lsGo_newline_eq_start_sub ws true 0 e he hn

/-- C5 witness: the amended statement applied to the concrete timelines of
the counterexample configuration. -/
theorem C5_newline_timestamp_witness :
    ∃ w ∈ [(⟨['a'], 0, 0⟩ : Wd), ⟨['b'], 1/100, 1/5⟩],
      (Ev.mk ['\n'] (-(1/25)) true).time = w.start - 1/20 := by
  refine C5_newline_timestamp.1 ⟨1/1000, 50⟩ [⟨['a'], 0, 0⟩, ⟨['b'], 1/100, 1/5⟩] _ ?_ rfl
  have h : generateCharacterTimings ⟨1/1000, 50⟩
        [⟨['a'], 0, 0⟩, ⟨['b'], 1/100, 1/5⟩] =
      [⟨['a'], 0, false⟩, ⟨[' '], 0, false⟩, ⟨['\n'], -(1/25), true⟩,
       ⟨['b'], 1/100, false⟩] := by
    norm_num +decide [generateCharacterTimings, goChar, shouldBreakChar, charEvts, trim,
      List.dropWhile, Char.isWhitespace]
  rw [h]
  simp

/-- With a zero per-character duration every character event is stamped at
the word start. -/
lemma charEvts_time_const {wstart : ℚ} :
    ∀ (k : ℕ) (cs : List Char) (e : Ev), e ∈ charEvts wstart 0 k cs →
      e.time = wstart := by
  intro k cs
  induction cs generalizing k with
  | nil => intro e h; simp [charEvts] at h
  | cons c cs ih =>
    intro e h
    rw [charEvts] at h
    rcases List.mem_cons.mp h with h | h
    · rw [h]; simp
    · exact ih _ e h

/-- If every word's trimmed text is empty, the character generator emits
newline events only (the per-character division branch never runs). -/
lemma goChar_all_trim_empty {cfg : KCfg} :
    ∀ (ws : List Wd), (∀ w ∈ ws, (trim w.text).length = 0) →
      ∀ (first : Bool) (lastEnd : ℚ) (lineLen : ℕ) (e : Ev),
        e ∈ goChar cfg first lastEnd lineLen ws → e.isNewline = true := by
  intro ws
  induction ws with
  | nil => intro _ first lastEnd lineLen e he; simp [goChar] at he
  | cons w rest ih =>
    intro hall first lastEnd lineLen e he
    rw [goChar, if_pos (hall w (List.mem_cons_self w rest))] at he
    rcases List.mem_append.mp he with h | h
    · by_cases hsb : shouldBreakChar cfg first (if first then 0 else w.start - lastEnd)
          lineLen = true
      · rw [if_pos hsb] at h
        rcases List.mem_singleton.mp h with rfl
        rfl
      · rw [if_neg hsb] at h
        simp at h
    · exact ih (fun w' hw' => hall w' (List.mem_cons_of_mem w hw')) false w.endTime _ e h

/-- C8: the builder is total on its inputs — the empty word list yields the
empty timeline; a word list all of whose trimmed texts are empty yields
newline events only (the division `duration / len(text)` is guarded by
`len(word_text) > 0` and its branch never runs); a single word with
`end == start` yields characters all stamped at `start`. -/
theorem C8_builder_edge_cases :
    (∀ cfg : KCfg, generateCharacterTimings cfg [] = []) ∧
    (∀ (cfg : KCfg) (ws : List Wd), (∀ w ∈ ws, (trim w.text).length = 0) →
       ∀ e ∈ generateCharacterTimings cfg ws, e.isNewline = true) ∧
    (∀ (cfg : KCfg) (w : Wd), w.endTime = w.start →
       ∀ e ∈ generateCharacterTimings cfg [w], e.time = w.start) := by
  refine ⟨fun _ => rfl, ?_, ?_⟩
  · intro cfg ws hall e he
    exact goChar_all_trim_empty ws hall true 0 0 e he
  · intro cfg w hdur e he
    rw [generateCharacterTimings, goChar] at he
    by_cases hw : (trim w.text).length = 0
    · rw [if_pos hw] at he
      simp [shouldBreakChar, goChar] at he
    · rw [if_neg hw] at he
      simp only [shouldBreakChar, Bool.not_true, Bool.false_and, if_neg, goChar,
        List.append_nil, hdur, sub_self, zero_div, if_pos rfl] at he
      rcases List.mem_append.mp he with h | h
      · rcases List.mem_append.mp he with h2 | h2
        · rcases List.mem_append.mp h2 with h3 | h3
          · simp at h3
          · exact charEvts_time_const _ _ e h3
        · simp at h2
      · simp at h

/-- C8 witness: edge cases at concrete inputs. -/
theorem C8_builder_edge_cases_witness :
    generateCharacterTimings ⟨1/2, 50⟩ [] = [] ∧
    (∀ e ∈ generateCharacterTimings ⟨1/2, 50⟩ [⟨[' '], 0, 1⟩], e.isNewline = true) ∧
    (∀ e ∈ generateCharacterTimings ⟨1/2, 50⟩ [⟨['I'], 1, 1⟩], e.time = 1) := by
  refine ⟨C8_builder_edge_cases.1 ⟨1/2, 50⟩, ?_, ?_⟩
  · exact C8_builder_edge_cases.2.1 ⟨1/2, 50⟩ [⟨[' '], 0, 1⟩]
      (by intro w hw; simp at hw; rw [hw]; decide)
  · exact C8_builder_edge_cases.2.2 ⟨1/2, 50⟩ ⟨['I'], 1, 1⟩ rfl

/-- Reference character builder following the spec's words (§4.1 step 2):
identical to `goChar` except that the inter-word gap is clamped,
`gap = max(0, word[i].start - last_word_end)`. -/
def goCharRef (cfg : KCfg) : Bool → ℚ → ℕ → List Wd → List Ev
  | _, _, _, [] => []
  | first, lastEnd, lineLen, w :: rest =>
    let wtext := trim w.text
    let sb : Bool :=
      shouldBreakChar cfg first (if first then 0 else max 0 (w.start - lastEnd)) lineLen
    let brk : List Ev := if sb then [⟨['\n'], w.start - 1/20, true⟩] else []
    let lineLen1 : ℕ := if sb then 0 else lineLen
    if wtext.length = 0 then
      brk ++ goCharRef cfg false w.endTime lineLen1 rest
    else
      let cdur : ℚ := (w.endTime - w.start) / (wtext.length : ℚ)
      let sp : List Ev := if rest = [] then [] else [⟨[' '], w.endTime, false⟩]
      let lineLen2 : ℕ := lineLen1 + wtext.length + (if rest = [] then 0 else 1)
      brk ++ charEvts w.start cdur 0 wtext ++ sp ++ goCharRef cfg false w.endTime lineLen2 rest

/-- The reference builder of the spec, clamped gaps. -/
def generateCharacterTimingsRef (cfg : KCfg) (ws : List Wd) : List Ev :=
  goCharRef cfg true 0 0 ws

/-- Reference version of the `LyricsSync` character builder with the
clamped gap. -/
def lsGoRef (thr : ℚ) : Bool → ℚ → List Wd → List Ev
  | _, _, [] => []
  | first, lastEnd, w :: rest =>
    let brk : List Ev :=
      if (!first) && decide (thr < max 0 (w.start - lastEnd)) then
        [⟨['\n'], w.start - 1/20, true⟩]
      else []
    if w.text.length = 0 then
      brk ++ lsGoRef thr false w.endTime rest
    else
      let cdur : ℚ := (w.endTime - w.start) / (w.text.length : ℚ)
      let sp : List Ev := if rest = [] then [] else [⟨[' '], w.endTime, false⟩]
      brk ++ charEvts w.start cdur 0 w.text ++ sp ++ lsGoRef thr false w.endTime rest

/-- Spec-worded reference for `LyricsSync._generate_character_timings`. -/
def lsGenerateCharacterTimingsRef (thr : ℚ) (ws : List Wd) : List Ev :=
  lsGoRef thr true 0 ws

/-- A nonnegative bound is exceeded by a clamped gap iff it is exceeded by
the raw gap. -/
lemma lt_max_zero_iff {a g : ℚ} (ha : 0 ≤ a) : a < max 0 g ↔ a < g := by
  rcases le_total g 0 with h | h
  · rw [max_eq_left h]
    constructor
    · intro hc; exact absurd hc (not_lt.mpr ha)
    · intro hc; exact absurd (hc.trans_le (h.trans ha)) (lt_irrefl a)
  · rw [max_eq_right h]

/-- With a nonnegative threshold the break decision is unchanged by
clamping the gap. -/
lemma shouldBreakChar_clamp {cfg : KCfg} (h : 0 ≤ cfg.newLineThreshold)
    (first : Bool) (g : ℚ) (lineLen : ℕ) :
    shouldBreakChar cfg first (max 0 g) lineLen =
      shouldBreakChar cfg first g lineLen := by
  unfold shouldBreakChar
  rw [decide_eq_decide.mpr (lt_max_zero_iff h),
    decide_eq_decide.mpr (lt_max_zero_iff (by norm_num : (0:ℚ) ≤ 3/10))]

lemma goCharRef_eq_goChar {cfg : KCfg} (h : 0 ≤ cfg.newLineThreshold) :
    ∀ (ws : List Wd) (first : Bool) (lastEnd : ℚ) (lineLen : ℕ),
      goCharRef cfg first lastEnd lineLen ws = goChar cfg first lastEnd lineLen ws := by
  intro ws
  induction ws with
  | nil => intro _ _ _; rfl
  | cons w rest ih =>
    intro first lastEnd lineLen
    rw [goCharRef, goChar]
    have hsb : shouldBreakChar cfg first (if first then 0 else max 0 (w.start - lastEnd))
        lineLen = shouldBreakChar cfg first (if first then 0 else w.start - lastEnd)
        lineLen := by
      cases first
      · simpa using shouldBreakChar_clamp h false (w.start - lastEnd) lineLen
      · rfl
    simp only [hsb, ih]

lemma lsGoRef_eq_lsGo {thr : ℚ} (h : 0 ≤ thr) :
    ∀ (ws : List Wd) (first : Bool) (lastEnd : ℚ),
      lsGoRef thr first lastEnd ws = lsGo thr first lastEnd ws := by
  intro ws
  induction ws with
  | nil => intro _ _; rfl
  | cons w rest ih =>
    intro first lastEnd
    rw [lsGoRef, lsGo]
    simp only [decide_eq_decide.mpr (lt_max_zero_iff h), ih]

/-- C9: for every word list (any configuration with a nonnegative
`new_line_threshold`, which contains the documented 0.3-0.8 second
range), the character generators of karaoke_player.py and of `LyricsSync`
produce exactly the timeline of the reference builder whose inter-word
gap is clamped to `max(0, word[i].start - last_word_end)`: negative gaps
behave exactly like a zero pause. -/
theorem C9_gap_clamp_refinement :
    (∀ (cfg : KCfg) (ws : List Wd), 0 ≤ cfg.newLineThreshold →
       generateCharacterTimingsRef cfg ws = generateCharacterTimings cfg ws) ∧
    (∀ (thr : ℚ) (ws : List Wd), 0 ≤ thr →
       lsGenerateCharacterTimingsRef thr ws = lsGenerateCharacterTimings thr ws) := by
  constructor
  · intro cfg ws h
    exact goCharRef_eq_goChar h ws true 0 0
  · intro thr ws h
    exact lsGoRef_eq_lsGo h ws true 0

/-- C9 witness: the refinement at a concrete overlapping (negative-gap)
word list and the default configuration. -/
theorem C9_gap_clamp_refinement_witness :
    generateCharacterTimingsRef ⟨1/2, 50⟩
        [⟨['a','b'], 0, 1⟩, ⟨['c','d'], 1/2, 3/2⟩] =
      generateCharacterTimings ⟨1/2, 50⟩
        [⟨['a','b'], 0, 1⟩, ⟨['c','d'], 1/2, 3/2⟩] ∧
    lsGenerateCharacterTimingsRef (4/5) [⟨['a'], 0, 1⟩, ⟨['b'], 1/2, 3/2⟩] =
      lsGenerateCharacterTimings (4/5) [⟨['a'], 0, 1⟩, ⟨['b'], 1/2, 3/2⟩] :=
  ⟨C9_gap_clamp_refinement.1 ⟨1/2, 50⟩ _ (by norm_num),
   C9_gap_clamp_refinement.2 (4/5) _ (by norm_num)⟩

/-- The concatenation of the contents of all non-Newline events of a
timeline. -/
def nonNewlineContent (l : List Ev) : List Char :=
  ((l.filter (fun e => !e.isNewline)).map Ev.content).flatten

/-- The spec's "space-joined word texts": texts joined by single spaces,
no trailing space. -/
def joinSpace : List (List Char) → List Char
  | [] => []
  | [t] => t
  | t :: ts => t ++ ' ' :: joinSpace ts

lemma joinSpace_cons_of_ne {t : List Char} {ts : List (List Char)} (h : ts ≠ []) :
    joinSpace (t :: ts) = t ++ ' ' :: joinSpace ts := by
  cases ts with
  | nil => exact absurd rfl h
  | cons t' ts' => rfl

lemma nonNewlineContent_append (l₁ l₂ : List Ev) :
    nonNewlineContent (l₁ ++ l₂) = nonNewlineContent l₁ ++ nonNewlineContent l₂ := by
  unfold nonNewlineContent
  rw [List.filter_append, List.map_append, List.flatten_append]

/-- The character events of one word contribute exactly its characters. -/
lemma nonNewlineContent_charEvts {wstart cdur : ℚ} :
    ∀ (k : ℕ) (cs : List Char), nonNewlineContent (charEvts wstart cdur k cs) = cs := by
  intro k cs
  induction cs generalizing k with
  | nil => rfl
  | cons c cs ih =>
    rw [charEvts]
    show nonNewlineContent ([⟨[c], wstart + (k : ℚ) * cdur, false⟩] ++
      charEvts wstart cdur (k + 1) cs) = c :: cs
    rw [nonNewlineContent_append, ih]
    rfl

lemma nonNewlineContent_brk {sb : Bool} {t : ℚ} :
    nonNewlineContent (if sb then [⟨['\n'], t, true⟩] else []) = [] := by
  cases sb <;> rfl

/-- Content of the character timeline when every trimmed text is
nonempty: the space-joined trimmed texts. -/
lemma goChar_content {cfg : KCfg} :
    ∀ (ws : List Wd), (∀ w ∈ ws, trim w.text ≠ []) →
      ∀ (first : Bool) (lastEnd : ℚ) (lineLen : ℕ),
        nonNewlineContent (goChar cfg first lastEnd lineLen ws) =
          joinSpace (ws.map (fun w => trim w.text)) := by
  intro ws
  induction ws with
  | nil => intro _ first lastEnd lineLen; rfl
  | cons w rest ih =>
    intro hall first lastEnd lineLen
    have hw : ¬((trim w.text).length = 0) := by
      simp only [List.length_eq_zero]
      exact hall w (List.mem_cons_self w rest)
    rw [goChar, if_neg hw]
    rcases eq_or_ne rest [] with rfl | hr
    · rw [if_pos rfl, if_pos rfl]
      rw [nonNewlineContent_append, nonNewlineContent_append, nonNewlineContent_append]
      rw [nonNewlineContent_brk, nonNewlineContent_charEvts]
      simp [goChar, nonNewlineContent, joinSpace]
    · rw [if_neg hr, if_neg hr]
      rw [nonNewlineContent_append, nonNewlineContent_append, nonNewlineContent_append]
      rw [nonNewlineContent_brk, nonNewlineContent_charEvts]
      rw [ih (fun w' hw' => hall w' (List.mem_cons_of_mem w hw')) false w.endTime _]
      rw [List.map_cons, joinSpace_cons_of_ne (by simp [hr])]
      simp [nonNewlineContent]

/-- C6 counterexample: with a middle word that is empty after trimming,
the concatenated non-Newline contents are `"a b"` while the space-joined
trimmed texts are `"a  b"` — the skipped word's separator is lost, so the
round-trip fails on such lists. -/
theorem C6_counterexample :
    nonNewlineContent (generateCharacterTimings ⟨1/2, 50⟩
        [⟨['a'], 0, 1⟩, ⟨[' '], 1, 1⟩, ⟨['b'], 1, 2⟩]) = ['a', ' ', 'b'] ∧
    joinSpace (([⟨['a'], 0, 1⟩, ⟨[' '], 1, 1⟩, ⟨['b'], 1, 2⟩] : List Wd).map
        (fun w => trim w.text)) = ['a', ' ', ' ', 'b'] ∧
    (['a', ' ', 'b'] : List Char) ≠ ['a', ' ', ' ', 'b'] := by
  refine ⟨?_, by decide, by decide⟩
  have h : generateCharacterTimings ⟨1/2, 50⟩
      [⟨['a'], 0, 1⟩, ⟨[' '], 1, 1⟩, ⟨['b'], 1, 2⟩] =
      [⟨['a'], 0, false⟩, ⟨[' '], 1, false⟩, ⟨['b'], 1, false⟩] := by
    norm_num +decide [generateCharacterTimings, goChar, shouldBreakChar, charEvts, trim,
      List.dropWhile, Char.isWhitespace]
  rw [h]
  decide

/-- C6 (amended): for every word list in which each word's trimmed text is
nonempty, concatenating the non-Newline contents of the
Character-granularity timeline reproduces the space-joined trimmed texts
exactly, with no trailing space; a word that trims to the empty string is
skipped together with its separator, so lists containing such words may
deviate. -/
theorem C6_content_roundtrip :
    ∀ (cfg : KCfg) (ws : List Wd), (∀ w ∈ ws, trim w.text ≠ []) →
      nonNewlineContent (generateCharacterTimings cfg ws) =
        joinSpace (ws.map (fun w => trim w.text)) := by
  intro cfg ws hall
  exact goChar_content ws hall true 0 0

/-- C6 witness: the round-trip at the Hello/world word list. -/
theorem C6_content_roundtrip_witness :
    nonNewlineContent (generateCharacterTimings ⟨1/2, 50⟩
        [⟨['H','e','l','l','o'], 0, 1/2⟩, ⟨['w','o','r','l','d'], 3/5, 1⟩]) =
      joinSpace (([⟨['H','e','l','l','o'], 0, 1/2⟩, ⟨['w','o','r','l','d'], 3/5, 1⟩] :
        List Wd).map (fun w => trim w.text)) := by
  refine C6_content_roundtrip ⟨1/2, 50⟩ _ ?_
  intro w hw
  rcases List.mem_cons.mp hw with rfl | hw
  · decide
  · rcases List.mem_cons.mp hw with rfl | hw
    · decide
    · simp at hw

/-- C10: the character timeline is computed at most once —
`_generate_character_timings` returns the cached list unchanged whenever
one is stored (regardless of the current display configuration, so config
changes after the first call have no effect on the timeline); after a
first call, a second call under any changed configuration returns the
very same list and leaves the state untouched; polling never changes the
cache or the transcription; and `reset()` sets only `current_index` to
0, leaving cache, words and configuration unchanged. -/
theorem C10_cache_and_reset :
    (∀ (s : SyncState) (t : List Ev), s.cache = some t →
       syncGenerateCharacterTimings s = (t, s)) ∧
    (∀ (s : SyncState) (c' : SyncCfg),
       syncGenerateCharacterTimings
           { (syncGenerateCharacterTimings s).2 with config := c' } =
         ((syncGenerateCharacterTimings s).1,
          { (syncGenerateCharacterTimings s).2 with config := c' })) ∧
    (∀ (s : SyncState) (p : ℚ) (t : List Ev), s.cache = some t →
       (getCurrentItems s p).2.cache = some t ∧
       (getCurrentItems s p).2.words = s.words) ∧
    (∀ s : SyncState, syncReset s =
       { config := s.config, words := s.words, index := 0, cache := s.cache }) := by
  refine ⟨?_, ?_, ?_, ?_⟩
  · intro s t h
    rw [syncGenerateCharacterTimings]
    rw [h]
  · intro s c'
    rcases hc : s.cache with _ | t <;>
      simp [syncGenerateCharacterTimings, hc]
  · intro s p t h
    rcases hm : s.config.mode with _ | _ <;>
      simp [getCurrentItems, hm, syncGenerateCharacterTimings, h]
  · intro s
    rfl

/-- C10 witness: the cache behavior at a concrete state. -/
theorem C10_cache_and_reset_witness :
    syncGenerateCharacterTimings
        ⟨⟨DispMode.character, 1/2⟩, [], 3, some [⟨['a'], 0, false⟩]⟩ =
      ([⟨['a'], 0, false⟩],
       ⟨⟨DispMode.character, 1/2⟩, [], 3, some [⟨['a'], 0, false⟩]⟩) ∧
    (getCurrentItems ⟨⟨DispMode.character, 1/2⟩, [], 3, some [⟨['a'], 0, false⟩]⟩
        1).2.cache = some [⟨['a'], 0, false⟩] := by
  constructor
  · exact C10_cache_and_reset.1 _ _ rfl
  · exact (C10_cache_and_reset.2.2.1 _ 1 _ rfl).1

/-- The cursor's due-test: `position >= char_time`. -/
def due (p : ℚ) (e : Ev) : Bool :=
  decide (e.time ≤ p)

/-- The `(char, is_newline)` pair returned for a consumed timeline entry. -/
def evProj (e : Ev) : List Char × Bool :=
  (e.content, e.isNewline)

/-- Number of timeline entries due at position `p` from the front. -/
def cnt (p : ℚ) (l : List Ev) : ℕ :=
  (l.takeWhile (due p)).length

/-- The character-mode while loop consumes exactly the due prefix of the
suffix it is run on. -/
lemma collect_eq (l : List Ev) (p : ℚ) :
    collect l p = ((l.takeWhile (due p)).map evProj, cnt p l) := by
  induction l with
  | nil => rfl
  | cons e rest ih =>
    by_cases h : e.time ≤ p
    · have h1 : List.takeWhile (due p) (e :: rest) = e :: rest.takeWhile (due p) := by
        simp [List.takeWhile_cons, due, h]
      have hcnt : cnt p (e :: rest) = cnt p rest + 1 := by
        rw [cnt, h1, List.length_cons]
        rfl
      rw [collect, if_pos h, ih, h1, hcnt]
      rfl
    · have h1 : List.takeWhile (due p) (e :: rest) = [] := by
        simp [List.takeWhile_cons, due, h]
      have hcnt : cnt p (e :: rest) = 0 := by
        rw [cnt, h1]
        rfl
      rw [collect, if_neg h, h1, hcnt]
      rfl

/-- Splitting the due prefix at a smaller position. -/
lemma takeWhile_due_split {q p : ℚ} (hqp : q ≤ p) :
    ∀ l : List Ev,
      l.takeWhile (due p) = l.takeWhile (due q) ++ (l.drop (cnt q l)).takeWhile (due p) := by
  intro l
  induction l with
  | nil => rfl
  | cons e rest ih =>
    by_cases h : e.time ≤ q
    · have hp : e.time ≤ p := h.trans hqp
      have h1 : List.takeWhile (due p) (e :: rest) = e :: rest.takeWhile (due p) := by
        simp [List.takeWhile_cons, due, hp]
      have h2 : List.takeWhile (due q) (e :: rest) = e :: rest.takeWhile (due q) := by
        simp [List.takeWhile_cons, due, h]
      have hcnt : cnt q (e :: rest) = cnt q rest + 1 := by
        rw [cnt, h2, List.length_cons]
        rfl
      rw [h1, h2, hcnt, List.drop_succ_cons, List.cons_append, ih]
    · have h2 : List.takeWhile (due q) (e :: rest) = [] := by
        simp [List.takeWhile_cons, due, h]
      have hcnt : cnt q (e :: rest) = 0 := by
        rw [cnt, h2]
        rfl
      rw [h2, hcnt, List.drop_zero, List.nil_append]

/-- Dropping the due prefix leaves no due entry at the front. -/
lemma drop_cnt_takeWhile_nil (p : ℚ) :
    ∀ l : List Ev, (l.drop (cnt p l)).takeWhile (due p) = [] := by
  intro l
  induction l with
  | nil => rfl
  | cons e rest ih =>
    by_cases h : e.time ≤ p
    · have h1 : List.takeWhile (due p) (e :: rest) = e :: rest.takeWhile (due p) := by
        simp [List.takeWhile_cons, due, h]
      have hcnt : cnt p (e :: rest) = cnt p rest + 1 := by
        rw [cnt, h1, List.length_cons]
        rfl
      rw [hcnt, List.drop_succ_cons]
      exact ih
    · have h1 : List.takeWhile (due p) (e :: rest) = [] := by
        simp [List.takeWhile_cons, due, h]
      have hcnt : cnt p (e :: rest) = 0 := by
        rw [cnt, h1]
        rfl
      rw [hcnt, List.drop_zero, h1]

/-- Counting version of `takeWhile_due_split`. -/
lemma cnt_split {q p : ℚ} (hqp : q ≤ p) (l : List Ev) :
    cnt p l = cnt q l + ((l.drop (cnt q l)).takeWhile (due p)).length := by
  rw [cnt, takeWhile_due_split hqp l, List.length_append]
  rfl

/-- In a time-sorted nonempty timeline the head's timestamp bounds every
later timestamp. -/
lemma chain'_time_le_all :
    ∀ {e : Ev} {rest : List Ev},
      List.Chain' (fun a b => a.time ≤ b.time) (e :: rest) →
      ∀ x ∈ rest, e.time ≤ x.time := by
  intro e rest
  induction rest generalizing e with
  | nil => intro _ x hx; cases hx
  | cons f rest ih =>
    intro hch x hx
    have h1 : e.time ≤ f.time := (List.chain'_cons.mp hch).1
    rcases List.mem_cons.mp hx with rfl | hx
    · exact h1
    · exact h1.trans (ih (List.chain'_cons.mp hch).2 x hx)

/-- On a time-sorted timeline the due prefix is every due entry. -/
lemma takeWhile_due_eq_filter (p : ℚ) :
    ∀ l : List Ev, List.Chain' (fun a b => a.time ≤ b.time) l →
      l.takeWhile (due p) = l.filter (due p) := by
  intro l
  induction l with
  | nil => intro _; rfl
  | cons e rest ih =>
    intro hch
    have hch' : List.Chain' (fun a b : Ev => a.time ≤ b.time) rest := hch.tail
    by_cases h : e.time ≤ p
    · rw [List.takeWhile_cons, if_pos (by simp [due, h]),
        List.filter_cons_of_pos (by simp [due, h]), ih hch']
    · rw [List.takeWhile_cons, if_neg (by simp [due, h]),
        List.filter_cons_of_neg (by simp [due, h])]
      have hall : ∀ x ∈ rest, e.time ≤ x.time := chain'_time_le_all hch
      rw [eq_comm, List.filter_eq_nil_iff]
      intro a ha hda
      rw [due, decide_eq_true_eq] at hda
      exact h ((hall a ha).trans hda)

/-- Characterization of a character-mode poll on a cached timeline: it
returns the projection of the due prefix of the suffix at
`current_index` and advances the index past it. -/
lemma getCurrentItems_char {s : SyncState} {tl : List Ev}
    (hm : s.config.mode = DispMode.character) (hc : s.cache = some tl) (p : ℚ) :
    getCurrentItems s p =
      (((tl.drop s.index).takeWhile (due p)).map evProj,
       { s with index := s.index + cnt p (tl.drop s.index) }) := by
  simp only [getCurrentItems, hm, syncGenerateCharacterTimings, hc, collect_eq]

/-- A poll never changes the configuration, the word list or an existing
cache. -/
lemma getCurrentItems_preserve {s : SyncState} {tl : List Ev}
    (hc : s.cache = some tl) (p : ℚ) :
    (getCurrentItems s p).2.config = s.config ∧
    (getCurrentItems s p).2.words = s.words ∧
    (getCurrentItems s p).2.cache = some tl := by
  rcases hm : s.config.mode <;>
    simp [getCurrentItems, hm, syncGenerateCharacterTimings, hc]

lemma pollRun_preserve {tl : List Ev} :
    ∀ (ps : List ℚ) (s : SyncState), s.cache = some tl →
      (pollRun s ps).2.config = s.config ∧ (pollRun s ps).2.words = s.words ∧
      (pollRun s ps).2.cache = some tl := by
  intro ps
  induction ps with
  | nil => intro s hc; exact ⟨rfl, rfl, hc⟩
  | cons p ps ih =>
    intro s hc
    obtain ⟨h1, h2, h3⟩ := getCurrentItems_preserve hc p
    obtain ⟨g1, g2, g3⟩ := ih (getCurrentItems s p).2 h3
    rw [pollRun]
    exact ⟨g1.trans h1, g2.trans h2, g3⟩

/-- Dropping the due-prefix count is dropping the due prefix. -/
lemma drop_cnt_eq_dropWhile (p : ℚ) (l : List Ev) :
    l.drop (cnt p l) = l.dropWhile (due p) := by
  have h := List.takeWhile_append_dropWhile (due p) l
  calc l.drop (cnt p l)
      = (l.takeWhile (due p) ++ l.dropWhile (due p)).drop (cnt p l) := by rw [h]
    _ = l.dropWhile (due p) := List.drop_left _ _

/-- The head surviving a `dropWhile` fails the predicate. -/
lemma head?_dropWhile_false {f : Ev → Bool} :
    ∀ (l : List Ev) (e : Ev), (l.dropWhile f).head? = some e → f e = false := by
  intro l
  induction l with
  | nil => intro e h; simp at h
  | cons a l ih =>
    intro e h
    by_cases ha : f a = true
    · rw [List.dropWhile_cons_of_pos ha] at h
      exact ih e h
    · rw [List.dropWhile_cons_of_neg ha] at h
      rw [List.head?_cons, Option.some_inj] at h
      rw [h] at ha
      exact eq_false_of_ne_true ha

/-- A `≤`-chain is bounded by its last element. -/
lemma chain'_le_getLastD :
    ∀ {ps : List ℚ} {p : ℚ}, List.Chain' (· ≤ ·) (p :: ps) → p ≤ ps.getLastD p := by
  intro ps
  induction ps with
  | nil => intro p _; exact le_refl p
  | cons r ps ih =>
    intro p hch
    rw [List.getLastD_cons]
    exact (List.chain'_cons.mp hch).1.trans (ih (List.chain'_cons.mp hch).2)

/-- Running the cursor from index `cnt q tl` over a monotone position list
drains exactly the events due at the last position, beyond those already
consumed. -/
lemma pollRun_char_from {tl : List Ev} {cfg : SyncCfg} {ws : List Wd}
    (hm : cfg.mode = DispMode.character) :
    ∀ (ps : List ℚ) (q : ℚ), List.Chain' (· ≤ ·) (q :: ps) →
      (pollRun ⟨cfg, ws, cnt q tl, some tl⟩ ps).1.flatten =
        ((tl.takeWhile (due (ps.getLastD q))).drop (cnt q tl)).map evProj := by
  intro ps
  induction ps with
  | nil =>
    intro q _
    rw [pollRun]
    show ([] : List (List Char × Bool)) =
      ((tl.takeWhile (due q)).drop (cnt q tl)).map evProj
    have hnil : (tl.takeWhile (due q)).drop (cnt q tl) = [] := List.drop_length _
    rw [hnil]
    rfl
  | cons p ps ih =>
    intro q hch
    have hqp : q ≤ p := (List.chain'_cons.mp hch).1
    have hch' : List.Chain' (· ≤ ·) (p :: ps) := (List.chain'_cons.mp hch).2
    have hpL : p ≤ ps.getLastD p := chain'_le_getLastD hch'
    rw [pollRun, @getCurrentItems_char ⟨cfg, ws, cnt q tl, some tl⟩ tl hm rfl p]
    have hidx : ({ (⟨cfg, ws, cnt q tl, some tl⟩ : SyncState) with
        index := (⟨cfg, ws, cnt q tl, some tl⟩ : SyncState).index +
          cnt p (tl.drop (⟨cfg, ws, cnt q tl, some tl⟩ : SyncState).index) } : SyncState) =
        ⟨cfg, ws, cnt p tl, some tl⟩ := by
      show (⟨cfg, ws, cnt q tl + cnt p (tl.drop (cnt q tl)), some tl⟩ : SyncState) = _
      rw [show cnt q tl + cnt p (tl.drop (cnt q tl)) = cnt p tl from (cnt_split hqp tl).symm]
    rw [hidx]
    show ((tl.drop (cnt q tl)).takeWhile (due p)).map evProj ++
        (pollRun ⟨cfg, ws, cnt p tl, some tl⟩ ps).1.flatten =
      ((tl.takeWhile (due ((p :: ps).getLastD q))).drop (cnt q tl)).map evProj
    rw [ih p hch', List.getLastD_cons]
    have e1 : tl.takeWhile (due (ps.getLastD p)) =
        tl.takeWhile (due p) ++ (tl.drop (cnt p tl)).takeWhile (due (ps.getLastD p)) :=
      takeWhile_due_split hpL tl
    have e2 : tl.takeWhile (due p) =
        tl.takeWhile (due q) ++ (tl.drop (cnt q tl)).takeWhile (due p) :=
      takeWhile_due_split hqp tl
    have hd1 : (tl.takeWhile (due (ps.getLastD p))).drop (cnt p tl) =
        (tl.drop (cnt p tl)).takeWhile (due (ps.getLastD p)) := by
      rw [e1]
      exact List.drop_left _ _
    have hd2 : (tl.takeWhile (due (ps.getLastD p))).drop (cnt q tl) =
        (tl.drop (cnt q tl)).takeWhile (due p) ++
          (tl.drop (cnt p tl)).takeWhile (due (ps.getLastD p)) := by
      rw [e1, e2, List.append_assoc]
      exact List.drop_left _ _
    rw [hd1, hd2, List.map_append]

/-- C2: on a time-sorted timeline, polling with a monotone position
sequence returns, concatenated, exactly the projection of the timeline
events due at the final position, each once and in timeline order; each
single poll returns precisely the due prefix of the unread suffix (so no
returned event's timestamp exceeds the position it was returned for); and
an immediately repeated poll at the same position returns an empty
batch. -/
theorem C2_cursor_consumption :
    (∀ (tl : List Ev) (cfg : SyncCfg) (ws : List Wd) (p0 : ℚ) (ps : List ℚ),
       cfg.mode = DispMode.character →
       List.Chain' (fun a b => a.time ≤ b.time) tl →
       List.Chain' (· ≤ ·) (p0 :: ps) →
       (pollRun ⟨cfg, ws, 0, some tl⟩ (p0 :: ps)).1.flatten =
         (tl.filter (due (ps.getLastD p0))).map evProj) ∧
    (∀ (s : SyncState) (tl : List Ev) (p : ℚ),
       s.config.mode = DispMode.character → s.cache = some tl →
       (getCurrentItems s p).1 = ((tl.drop s.index).takeWhile (due p)).map evProj ∧
       ∀ e ∈ (tl.drop s.index).takeWhile (due p), e.time ≤ p) ∧
    (∀ (s : SyncState) (tl : List Ev) (p : ℚ),
       s.config.mode = DispMode.character → s.cache = some tl →
       (getCurrentItems (getCurrentItems s p).2 p).1 = []) := by
  refine ⟨?_, ?_, ?_⟩
  · intro tl cfg ws p0 ps hm htl hch
    rw [pollRun, @getCurrentItems_char ⟨cfg, ws, 0, some tl⟩ tl hm rfl p0]
    have hidx : ({ (⟨cfg, ws, 0, some tl⟩ : SyncState) with
        index := (⟨cfg, ws, 0, some tl⟩ : SyncState).index +
          cnt p0 (tl.drop (⟨cfg, ws, 0, some tl⟩ : SyncState).index) } : SyncState) =
        ⟨cfg, ws, cnt p0 tl, some tl⟩ := by
      show (⟨cfg, ws, 0 + cnt p0 (tl.drop 0), some tl⟩ : SyncState) = _
      rw [List.drop_zero, Nat.zero_add]
    rw [hidx]
    show ((tl.drop 0).takeWhile (due p0)).map evProj ++
        (pollRun ⟨cfg, ws, cnt p0 tl, some tl⟩ ps).1.flatten =
      (tl.filter (due (ps.getLastD p0))).map evProj
    rw [pollRun_char_from hm ps p0 hch, List.drop_zero]
    have hp0L : p0 ≤ ps.getLastD p0 := chain'_le_getLastD hch
    have e2 := takeWhile_due_split hp0L tl
    have hd : (tl.takeWhile (due (ps.getLastD p0))).drop (cnt p0 tl) =
        (tl.drop (cnt p0 tl)).takeWhile (due (ps.getLastD p0)) := by
      rw [e2]
      exact List.drop_left _ _
    rw [hd, ← List.map_append, ← e2, takeWhile_due_eq_filter _ tl htl]
  · intro s tl p hm hc
    constructor
    · rw [getCurrentItems_char hm hc]
    · intro e he
      have hdue := List.mem_takeWhile_imp he
      rw [due, decide_eq_true_eq] at hdue
      exact hdue
  · intro s tl p hm hc
    rw [getCurrentItems_char hm hc,
      @getCurrentItems_char { s with index := s.index + cnt p (tl.drop s.index) } tl
        hm hc p]
    have hdd : tl.drop (s.index + cnt p (tl.drop s.index)) =
        (tl.drop s.index).drop (cnt p (tl.drop s.index)) :=
      (List.drop_drop _ _ _).symm
    show ((tl.drop (s.index + cnt p (tl.drop s.index))).takeWhile (due p)).map evProj = []
    rw [hdd, drop_cnt_takeWhile_nil p (tl.drop s.index)]
    rfl

/-- C2 witness: a two-event sorted timeline polled at 1/2 then 1 drains
both events; the repeated poll at 1/2 is empty. -/
theorem C2_cursor_consumption_witness :
    (pollRun ⟨⟨DispMode.character, 1/2⟩, [],
        0, some [⟨['a'], 0, false⟩, ⟨['b'], 1, false⟩]⟩ [1/2, 1]).1.flatten =
      (([⟨['a'], 0, false⟩, ⟨['b'], 1, false⟩] : List Ev).filter (due 1)).map evProj ∧
    (getCurrentItems (getCurrentItems ⟨⟨DispMode.character, 1/2⟩, [],
        0, some [⟨['a'], 0, false⟩, ⟨['b'], 1, false⟩]⟩ (1/2)).2 (1/2)).1 = [] := by
  constructor
  · exact C2_cursor_consumption.1 [⟨['a'], 0, false⟩, ⟨['b'], 1, false⟩]
      ⟨DispMode.character, 1/2⟩ [] (1/2) [1] rfl
      (by norm_num [List.chain'_cons]) (by norm_num [List.chain'_cons])
  · exact C2_cursor_consumption.2.2 _ [⟨['a'], 0, false⟩, ⟨['b'], 1, false⟩] (1/2) rfl rfl

/-- After a poll at `p`, the first unread event (if any) is strictly
beyond `p`. -/
lemma getCurrentItems_head_gt {s : SyncState} {tl : List Ev}
    (hm : s.config.mode = DispMode.character) (hc : s.cache = some tl) (p : ℚ) :
    ∀ e, (tl.drop (getCurrentItems s p).2.index).head? = some e → p < e.time := by
  intro e he
  rw [getCurrentItems_char hm hc] at he
  have hdd : tl.drop (s.index + cnt p (tl.drop s.index)) =
      (tl.drop s.index).drop (cnt p (tl.drop s.index)) :=
    (List.drop_drop _ _ _).symm
  rw [show ({ s with index := s.index + cnt p (tl.drop s.index) } : SyncState).index =
      s.index + cnt p (tl.drop s.index) from rfl, hdd,
    drop_cnt_eq_dropWhile p (tl.drop s.index)] at he
  have hf := head?_dropWhile_false _ e he
  rw [due, decide_eq_false_iff_not] at hf
  exact lt_of_not_le hf

/-- A poll can only raise the time of the first unread event: any strict
lower bound on it survives the poll. -/
lemma getCurrentItems_head_mono {s : SyncState} {tl : List Ev}
    (hm : s.config.mode = DispMode.character) (hc : s.cache = some tl) (p q : ℚ)
    (hq : ∀ e, (tl.drop s.index).head? = some e → q < e.time) :
    ∀ e, (tl.drop (getCurrentItems s p).2.index).head? = some e → q < e.time := by
  intro e he
  rcases h0 : tl.drop s.index with _ | ⟨e0, rest0⟩
  · rw [getCurrentItems_char hm hc] at he
    rw [show ({ s with index := s.index + cnt p (tl.drop s.index) } : SyncState).index =
        s.index + cnt p (tl.drop s.index) from rfl] at he
    have : tl.drop (s.index + cnt p (tl.drop s.index)) = [] := by
      rw [(List.drop_drop _ _ _).symm, h0]
      simp
    rw [this] at he
    cases he
  · by_cases hd : e0.time ≤ p
    · have hqp : q < p := lt_of_lt_of_le (hq e0 (by rw [h0]; rfl)) hd
      exact hqp.trans (getCurrentItems_head_gt hm hc p e he)
    · have hcnt : cnt p (tl.drop s.index) = 0 := by
        rw [h0, cnt, List.takeWhile_cons, if_neg (by simp [due, hd])]
        rfl
      rw [getCurrentItems_char hm hc] at he
      rw [show ({ s with index := s.index + cnt p (tl.drop s.index) } : SyncState).index =
          s.index + cnt p (tl.drop s.index) from rfl, hcnt, Nat.add_zero] at he
      exact hq e he

/-- The lower bound on the first unread event survives any further poll
sequence. -/
lemma pollRun_head_preserve {tl : List Ev} :
    ∀ (ps : List ℚ) (s : SyncState),
      s.config.mode = DispMode.character → s.cache = some tl →
      ∀ q, (∀ e, (tl.drop s.index).head? = some e → q < e.time) →
      ∀ e, (tl.drop (pollRun s ps).2.index).head? = some e → q < e.time := by
  intro ps
  induction ps with
  | nil => intro s _ _ q hq e he; exact hq e he
  | cons p ps ih =>
    intro s hm hc q hq e he
    obtain ⟨h1, _, h3⟩ := getCurrentItems_preserve hc p
    rw [pollRun] at he
    exact ih (getCurrentItems s p).2 (by rw [h1]; exact hm) h3 q
      (getCurrentItems_head_mono hm hc p q hq) e he

/-- After a poll run, every polled position strictly bounds the first
unread event. -/
lemma pollRun_head_gt {tl : List Ev} :
    ∀ (qs : List ℚ) (s : SyncState),
      s.config.mode = DispMode.character → s.cache = some tl →
      ∀ q' ∈ qs, ∀ e, (tl.drop (pollRun s qs).2.index).head? = some e → q' < e.time := by
  intro qs
  induction qs with
  | nil => intro s _ _ q' hq'; cases hq'
  | cons q0 rest ih =>
    intro s hm hc q' hq' e he
    obtain ⟨h1, _, h3⟩ := getCurrentItems_preserve hc q0
    rw [pollRun] at he
    rcases List.mem_cons.mp hq' with rfl | hmem
    · exact pollRun_head_preserve rest (getCurrentItems s q').2
        (by rw [h1]; exact hm) h3 q' (getCurrentItems_head_gt hm hc q') e he
    · exact ih (getCurrentItems s q0).2 (by rw [h1]; exact hm) h3 q' hmem e he

/-- C7: `current_index` never decreases on any poll (either display mode);
after any sequence of polls with arbitrary, not necessarily monotone,
positions, a poll at a position strictly below some earlier polled
position returns an empty batch and leaves the index unchanged; and only
`reset()` puts the index back to 0. -/
theorem C7_cursor_forward_only :
    (∀ (s : SyncState) (p : ℚ), s.index ≤ (getCurrentItems s p).2.index) ∧
    (∀ (tl : List Ev) (cfg : SyncCfg) (ws : List Wd) (qs : List ℚ) (q' p' : ℚ),
       cfg.mode = DispMode.character → q' ∈ qs → p' < q' →
       (getCurrentItems (pollRun ⟨cfg, ws, 0, some tl⟩ qs).2 p').1 = [] ∧
       (getCurrentItems (pollRun ⟨cfg, ws, 0, some tl⟩ qs).2 p').2.index =
         (pollRun ⟨cfg, ws, 0, some tl⟩ qs).2.index) ∧
    (∀ s : SyncState, (syncReset s).index = 0) := by
  refine ⟨?_, ?_, fun _ => rfl⟩
  · intro s p
    rcases hm : s.config.mode
    · rcases hc : s.cache with _ | t <;>
        simp [getCurrentItems, hm, syncGenerateCharacterTimings, hc]
    · simp [getCurrentItems, hm]
  · intro tl cfg ws qs q' p' hm hq' hlt
    obtain ⟨h1, _, h3⟩ := pollRun_preserve qs ⟨cfg, ws, 0, some tl⟩ rfl
    have hm1 : (pollRun (⟨cfg, ws, 0, some tl⟩ : SyncState) qs).2.config.mode =
        DispMode.character := by
      rw [h1]
      exact hm
    have hhead := pollRun_head_gt qs ⟨cfg, ws, 0, some tl⟩ hm rfl q' hq'
    have hchar := getCurrentItems_char hm1 h3 p'
    have htw : (tl.drop (pollRun (⟨cfg, ws, 0, some tl⟩ : SyncState) qs).2.index).takeWhile
        (due p') = [] := by
      rcases hsuf : tl.drop (pollRun (⟨cfg, ws, 0, some tl⟩ : SyncState) qs).2.index
        with _ | ⟨e0, r0⟩
      · rfl
      · have hgt : p' < e0.time := hlt.trans (hhead e0 (by rw [hsuf]; rfl))
        rw [List.takeWhile_cons, if_neg (by simp [due]; exact hgt)]
    have hcnt : cnt p'
        (tl.drop (pollRun (⟨cfg, ws, 0, some tl⟩ : SyncState) qs).2.index) = 0 := by
      rw [cnt, htw]
      rfl
    constructor
    · rw [hchar]
      show ((tl.drop (pollRun (⟨cfg, ws, 0, some tl⟩ : SyncState) qs).2.index).takeWhile
        (due p')).map evProj = []
      rw [htw]
      rfl
    · rw [hchar]
      show (pollRun (⟨cfg, ws, 0, some tl⟩ : SyncState) qs).2.index +
          cnt p' (tl.drop (pollRun (⟨cfg, ws, 0, some tl⟩ : SyncState) qs).2.index) =
        (pollRun (⟨cfg, ws, 0, some tl⟩ : SyncState) qs).2.index
      rw [hcnt, Nat.add_zero]

/-- C7 witness: a clock regression after consuming an event at a concrete
state. -/
theorem C7_cursor_forward_only_witness :
    (getCurrentItems (pollRun ⟨⟨DispMode.character, 1/2⟩, [],
        0, some [⟨['a'], 1, false⟩]⟩ [2]).2 (1/2)).1 = [] ∧
    (getCurrentItems (pollRun ⟨⟨DispMode.character, 1/2⟩, [],
        0, some [⟨['a'], 1, false⟩]⟩ [2]).2 (1/2)).2.index =
      (pollRun ⟨⟨DispMode.character, 1/2⟩, [],
        0, some [⟨['a'], 1, false⟩]⟩ [2]).2.index ∧
    (⟨⟨DispMode.character, 1/2⟩, [], 0, some [⟨['a'], 1, false⟩]⟩ :
      SyncState).index ≤
      (getCurrentItems ⟨⟨DispMode.character, 1/2⟩, [],
        0, some [⟨['a'], 1, false⟩]⟩ 2).2.index := by
  obtain ⟨ha, hb⟩ := C7_cursor_forward_only.2.1 [⟨['a'], 1, false⟩]
    ⟨DispMode.character, 1/2⟩ [] [2] 2 (1/2) rfl (List.mem_singleton.mpr rfl)
    (by norm_num)
  exact ⟨ha, hb, C7_cursor_forward_only.1 _ 2⟩

/-- Gluing two sorted event runs separated by a bound. -/
lemma chain'_append_of_bound {l₁ l₂ : List Ev} (m : ℚ)
    (h1 : List.Chain' (fun a b : Ev => a.time ≤ b.time) l₁)
    (hub : ∀ e ∈ l₁, e.time ≤ m)
    (h2 : List.Chain' (fun a b : Ev => a.time ≤ b.time) l₂)
    (hlb : ∀ e ∈ l₂, m ≤ e.time) :
    List.Chain' (fun a b : Ev => a.time ≤ b.time) (l₁ ++ l₂) := by
  apply h1.append h2
  intro x hx y hy
  exact (hub x (List.mem_of_mem_getLast? hx)).trans (hlb y (List.mem_of_mem_head? hy))

/-- With a nonnegative per-character duration, character events are
emitted in nondecreasing time order. -/
lemma charEvts_chain {wstart cdur : ℚ} (hd : 0 ≤ cdur) :
    ∀ (k : ℕ) (cs : List Char),
      List.Chain' (fun a b : Ev => a.time ≤ b.time) (charEvts wstart cdur k cs) := by
  intro k cs
  induction cs generalizing k with
  | nil => exact List.chain'_nil
  | cons c cs ih =>
    rw [charEvts, List.chain'_cons']
    refine ⟨?_, ih (k + 1)⟩
    intro y hy
    cases cs with
    | nil => simp [charEvts] at hy
    | cons c' cs' =>
      rw [charEvts, List.head?_cons, Option.mem_some_iff] at hy
      rw [← hy]
      show wstart + (k : ℚ) * cdur ≤ wstart + ((k + 1 : ℕ) : ℚ) * cdur
      have : ((k : ℚ)) ≤ ((k + 1 : ℕ) : ℚ) := by
        push_cast
        linarith
      nlinarith

/-- Character events are stamped at or after the word start. -/
lemma charEvts_time_lb {wstart cdur : ℚ} (hd : 0 ≤ cdur) :
    ∀ (k : ℕ) (cs : List Char) (e : Ev), e ∈ charEvts wstart cdur k cs →
      wstart ≤ e.time := by
  intro k cs
  induction cs generalizing k with
  | nil => intro e h; simp [charEvts] at h
  | cons c cs ih =>
    intro e h
    rw [charEvts] at h
    rcases List.mem_cons.mp h with rfl | h
    · show wstart ≤ wstart + (k : ℚ) * cdur
      nlinarith [(Nat.cast_nonneg k : (0 : ℚ) ≤ (k : ℚ))]
    · exact ih (k + 1) e h

/-- Character events are stamped at or before the last character's slot. -/
lemma charEvts_time_ub {wstart cdur : ℚ} (hd : 0 ≤ cdur) :
    ∀ (k : ℕ) (cs : List Char) (e : Ev), e ∈ charEvts wstart cdur k cs →
      e.time ≤ wstart + (((k + cs.length : ℕ) : ℚ) - 1) * cdur := by
  intro k cs
  induction cs generalizing k with
  | nil => intro e h; simp [charEvts] at h
  | cons c cs ih =>
    intro e h
    rw [charEvts] at h
    rcases List.mem_cons.mp h with rfl | h
    · show wstart + (k : ℚ) * cdur ≤ wstart + (((k + (c :: cs).length : ℕ) : ℚ) - 1) * cdur
      have hk : (k : ℚ) ≤ ((k + (c :: cs).length : ℕ) : ℚ) - 1 := by
        rw [List.length_cons]
        push_cast
        linarith [(Nat.cast_nonneg cs.length : (0 : ℚ) ≤ (cs.length : ℚ))]
      nlinarith
    · have := ih (k + 1) e h
      have hk : (((k + 1 + cs.length : ℕ) : ℚ) - 1) = (((k + (c :: cs).length : ℕ) : ℚ) - 1) := by
        rw [List.length_cons]
        push_cast
        ring
      rw [hk] at this
      exact this

/-- All character events of a word with `start ≤ end` lie in
`[start, end]`. -/
lemma charEvts_time_le_end {wstart wend : ℚ} {cs : List Char}
    (hse : wstart ≤ wend) (hcs : cs ≠ []) :
    ∀ e ∈ charEvts wstart ((wend - wstart) / (cs.length : ℚ)) 0 cs, e.time ≤ wend := by
  intro e he
  have hL : (0 : ℚ) < (cs.length : ℚ) := by
    have : 0 < cs.length := List.length_pos.mpr hcs
    exact_mod_cast this
  have hd : 0 ≤ (wend - wstart) / (cs.length : ℚ) :=
    div_nonneg (by linarith) (le_of_lt hL)
  have hub := charEvts_time_ub hd 0 cs e he
  have hmul : ((cs.length : ℚ)) * ((wend - wstart) / (cs.length : ℚ)) = wend - wstart := by
    field_simp
  have : (((0 + cs.length : ℕ) : ℚ) - 1) * ((wend - wstart) / (cs.length : ℚ)) ≤
      wend - wstart := by
    rw [Nat.zero_add]
    calc ((cs.length : ℚ) - 1) * ((wend - wstart) / (cs.length : ℚ))
        ≤ (cs.length : ℚ) * ((wend - wstart) / (cs.length : ℚ)) := by nlinarith
      _ = wend - wstart := hmul
  linarith

lemma brk_chain (t : ℚ) (b : Bool) :
    List.Chain' (fun a b : Ev => a.time ≤ b.time)
      (if b = true then [⟨['\n'], t, true⟩] else []) := by
  cases b with
  | false => rw [if_neg (by simp)]; exact List.chain'_nil
  | true => rw [if_pos rfl]; exact List.chain'_singleton _

lemma brk_mem {t : ℚ} {b : Bool} {e : Ev}
    (h : e ∈ (if b = true then [(⟨['\n'], t, true⟩ : Ev)] else [])) : e.time = t := by
  cases b with
  | false => rw [if_neg (by simp)] at h; cases h
  | true => rw [if_pos rfl] at h; rw [List.mem_singleton.mp h]

/-- Sortedness of the character generator run on words whose timestamps
are well-formed (`start ≤ end`) and separated by at least the 0.05-second
newline lead (`end + 0.05 ≤ next start`): the output is nondecreasing in
time, and (when not at the first word) bounded below by `last_word_end`. -/
lemma goChar_sorted_aux {cfg : KCfg} :
    ∀ (ws : List Wd) (first : Bool) (lastEnd : ℚ) (lineLen : ℕ),
      (∀ w ∈ ws, w.start ≤ w.endTime) →
      List.Chain' (fun a b : Wd => a.endTime + 1/20 ≤ b.start) ws →
      (first = false → ∀ w0 ∈ ws.head?, lastEnd + 1/20 ≤ w0.start) →
      List.Chain' (fun a b : Ev => a.time ≤ b.time)
        (goChar cfg first lastEnd lineLen ws) ∧
      (first = false → ∀ e ∈ goChar cfg first lastEnd lineLen ws, lastEnd ≤ e.time) := by
  intro ws
  induction ws with
  | nil =>
    intro first lastEnd lineLen _ _ _
    constructor
    · rw [goChar]; exact List.chain'_nil
    · intro _ e he; rw [goChar] at he; cases he
  | cons w rest ih =>
    intro first lastEnd lineLen hall hch hhead
    have hse : w.start ≤ w.endTime := hall w (List.mem_cons_self w rest)
    have hallr : ∀ w' ∈ rest, w'.start ≤ w'.endTime :=
      fun w' hw' => hall w' (List.mem_cons_of_mem w hw')
    have hchr : List.Chain' (fun a b : Wd => a.endTime + 1/20 ≤ b.start) rest := hch.tail
    have hheadr : ∀ w1 ∈ rest.head?, w.endTime + 1/20 ≤ w1.start :=
      (List.chain'_cons'.mp hch).1
    have ihr : ∀ n : ℕ,
        List.Chain' (fun a b : Ev => a.time ≤ b.time) (goChar cfg false w.endTime n rest) ∧
        ∀ e ∈ goChar cfg false w.endTime n rest, w.endTime ≤ e.time := by
      intro n
      obtain ⟨h1, h2⟩ := ih false w.endTime n hallr hchr (fun _ => hheadr)
      exact ⟨h1, h2 rfl⟩
    rw [goChar]
    by_cases hw : (trim w.text).length = 0
    · rw [if_pos hw]
      constructor
      · refine chain'_append_of_bound w.start (brk_chain _ _) ?_ (ihr _).1 ?_
        · intro e he
          rw [brk_mem he]
          linarith
        · intro e he
          exact hse.trans ((ihr _).2 e he)
      · intro hf e he
        have hlb : lastEnd + 1/20 ≤ w.start := hhead hf w rfl
        rcases List.mem_append.mp he with h | h
        · rw [brk_mem h]; linarith
        · have := (ihr _).2 e h; linarith
    · rw [if_neg hw]
      have hcs : trim w.text ≠ [] := fun h => hw (by rw [h]; rfl)
      have hLpos : (0 : ℚ) < ((trim w.text).length : ℚ) := by
        have : 0 < (trim w.text).length := List.length_pos.mpr hcs
        exact_mod_cast this
      have hdur : 0 ≤ (w.endTime - w.start) / ((trim w.text).length : ℚ) :=
        div_nonneg (by linarith) (le_of_lt hLpos)
      have hchars_chain := @charEvts_chain w.start
        ((w.endTime - w.start) / ((trim w.text).length : ℚ)) hdur 0 (trim w.text)
      have hchars_lb := @charEvts_time_lb w.start
        ((w.endTime - w.start) / ((trim w.text).length : ℚ)) hdur 0 (trim w.text)
      have hchars_ub := charEvts_time_le_end hse hcs
      have hsp_chain : List.Chain' (fun a b : Ev => a.time ≤ b.time)
          (if rest = [] then [] else [(⟨[' '], w.endTime, false⟩ : Ev)]) := by
        by_cases hr : rest = []
        · rw [if_pos hr]; exact List.chain'_nil
        · rw [if_neg hr]; exact List.chain'_singleton _
      have hsp_mem : ∀ e ∈ (if rest = [] then [] else [(⟨[' '], w.endTime, false⟩ : Ev)]),
          e.time = w.endTime := by
        intro e he
        by_cases hr : rest = []
        · rw [if_pos hr] at he; cases he
        · rw [if_neg hr] at he; rw [List.mem_singleton.mp he]
      have hA_chain : List.Chain' (fun a b : Ev => a.time ≤ b.time)
          ((if shouldBreakChar cfg first (if first then 0 else w.start - lastEnd)
              lineLen = true then [(⟨['\n'], w.start - 1/20, true⟩ : Ev)] else []) ++
            charEvts w.start ((w.endTime - w.start) / ((trim w.text).length : ℚ)) 0
              (trim w.text)) := by
        refine chain'_append_of_bound w.start (brk_chain _ _) ?_ hchars_chain hchars_lb
        intro e he
        rw [brk_mem he]
        linarith
      have hA_ub : ∀ e ∈ (if shouldBreakChar cfg first
            (if first then 0 else w.start - lastEnd) lineLen = true then
            [(⟨['\n'], w.start - 1/20, true⟩ : Ev)] else []) ++
          charEvts w.start ((w.endTime - w.start) / ((trim w.text).length : ℚ)) 0
            (trim w.text), e.time ≤ w.endTime := by
        intro e he
        rcases List.mem_append.mp he with h | h
        · rw [brk_mem h]; linarith
        · exact hchars_ub e h
      have hA_lb : ∀ e ∈ (if shouldBreakChar cfg first
            (if first then 0 else w.start - lastEnd) lineLen = true then
            [(⟨['\n'], w.start - 1/20, true⟩ : Ev)] else []) ++
          charEvts w.start ((w.endTime - w.start) / ((trim w.text).length : ℚ)) 0
            (trim w.text), w.start - 1/20 ≤ e.time := by
        intro e he
        rcases List.mem_append.mp he with h | h
        · rw [brk_mem h]
        · have := hchars_lb e h; linarith
      have hB_chain : List.Chain' (fun a b : Ev => a.time ≤ b.time)
          (((if shouldBreakChar cfg first (if first then 0 else w.start - lastEnd)
              lineLen = true then [(⟨['\n'], w.start - 1/20, true⟩ : Ev)] else []) ++
            charEvts w.start ((w.endTime - w.start) / ((trim w.text).length : ℚ)) 0
              (trim w.text)) ++
            (if rest = [] then [] else [(⟨[' '], w.endTime, false⟩ : Ev)])) := by
        refine chain'_append_of_bound w.endTime hA_chain hA_ub hsp_chain ?_
        intro e he
        rw [hsp_mem e he]
      have hB_ub : ∀ e ∈ ((if shouldBreakChar cfg first
            (if first then 0 else w.start - lastEnd) lineLen = true then
            [(⟨['\n'], w.start - 1/20, true⟩ : Ev)] else []) ++
          charEvts w.start ((w.endTime - w.start) / ((trim w.text).length : ℚ)) 0
            (trim w.text)) ++
          (if rest = [] then [] else [(⟨[' '], w.endTime, false⟩ : Ev)]),
          e.time ≤ w.endTime := by
        intro e he
        rcases List.mem_append.mp he with h | h
        · exact hA_ub e h
        · rw [hsp_mem e h]
      have hB_lb : ∀ e ∈ ((if shouldBreakChar cfg first
            (if first then 0 else w.start - lastEnd) lineLen = true then
            [(⟨['\n'], w.start - 1/20, true⟩ : Ev)] else []) ++
          charEvts w.start ((w.endTime - w.start) / ((trim w.text).length : ℚ)) 0
            (trim w.text)) ++
          (if rest = [] then [] else [(⟨[' '], w.endTime, false⟩ : Ev)]),
          w.start - 1/20 ≤ e.time := by
        intro e he
        rcases List.mem_append.mp he with h | h
        · exact hA_lb e h
        · rw [hsp_mem e h]; linarith
      constructor
      · refine chain'_append_of_bound w.endTime hB_chain hB_ub (ihr _).1 (ihr _).2
      · intro hf e he
        have hlb : lastEnd + 1/20 ≤ w.start := hhead hf w rfl
        rcases List.mem_append.mp he with h | h
        · have := hB_lb e h; linarith
        · have := (ihr _).2 e h; linarith

/-- Sortedness of the word generator under the same word-spacing
hypotheses. -/
lemma goWord_sorted_aux {cfg : KCfg} :
    ∀ (ws : List Wd) (first : Bool) (lastEnd : ℚ) (lineLen : ℕ),
      (∀ w ∈ ws, w.start ≤ w.endTime) →
      List.Chain' (fun a b : Wd => a.endTime + 1/20 ≤ b.start) ws →
      (first = false → ∀ w0 ∈ ws.head?, lastEnd + 1/20 ≤ w0.start) →
      List.Chain' (fun a b : Ev => a.time ≤ b.time)
        (goWord cfg first lastEnd lineLen ws) ∧
      (first = false → ∀ e ∈ goWord cfg first lastEnd lineLen ws, lastEnd ≤ e.time) := by
  intro ws
  induction ws with
  | nil =>
    intro first lastEnd lineLen _ _ _
    constructor
    · rw [goWord]; exact List.chain'_nil
    · intro _ e he; rw [goWord] at he; cases he
  | cons w rest ih =>
    intro first lastEnd lineLen hall hch hhead
    have hse : w.start ≤ w.endTime := hall w (List.mem_cons_self w rest)
    have hallr : ∀ w' ∈ rest, w'.start ≤ w'.endTime :=
      fun w' hw' => hall w' (List.mem_cons_of_mem w hw')
    have hchr : List.Chain' (fun a b : Wd => a.endTime + 1/20 ≤ b.start) rest := hch.tail
    have hheadr : ∀ w1 ∈ rest.head?, w.endTime + 1/20 ≤ w1.start :=
      (List.chain'_cons'.mp hch).1
    have ihr : ∀ n : ℕ,
        List.Chain' (fun a b : Ev => a.time ≤ b.time) (goWord cfg false w.endTime n rest) ∧
        ∀ e ∈ goWord cfg false w.endTime n rest, w.endTime ≤ e.time := by
      intro n
      obtain ⟨h1, h2⟩ := ih false w.endTime n hallr hchr (fun _ => hheadr)
      exact ⟨h1, h2 rfl⟩
    rw [goWord]
    by_cases hw : (trim w.text).length = 0
    · rw [if_pos hw]
      constructor
      · refine chain'_append_of_bound w.start (brk_chain _ _) ?_ (ihr _).1 ?_
        · intro e he
          rw [brk_mem he]
          linarith
        · intro e he
          exact hse.trans ((ihr _).2 e he)
      · intro hf e he
        have hlb : lastEnd + 1/20 ≤ w.start := hhead hf w rfl
        rcases List.mem_append.mp he with h | h
        · rw [brk_mem h]; linarith
        · have := (ihr _).2 e h; linarith
    · rw [if_neg hw]
      have hA_chain : List.Chain' (fun a b : Ev => a.time ≤ b.time)
          ((if shouldBreakWord cfg first (if first then 0 else w.start - lastEnd)
              lineLen (trim w.text).length = true then
              [(⟨['\n'], w.start - 1/20, true⟩ : Ev)] else []) ++
            [(⟨trim w.text ++ [' '], w.start, false⟩ : Ev)]) := by
        refine chain'_append_of_bound w.start (brk_chain _ _) ?_
          (List.chain'_singleton _) ?_
        · intro e he
          rw [brk_mem he]
          linarith
        · intro e he
          rw [List.mem_singleton.mp he]
      have hA_ub : ∀ e ∈ (if shouldBreakWord cfg first
            (if first then 0 else w.start - lastEnd) lineLen
            (trim w.text).length = true then
            [(⟨['\n'], w.start - 1/20, true⟩ : Ev)] else []) ++
          [(⟨trim w.text ++ [' '], w.start, false⟩ : Ev)], e.time ≤ w.endTime := by
        intro e he
        rcases List.mem_append.mp he with h | h
        · rw [brk_mem h]; linarith
        · rw [List.mem_singleton.mp h]; exact hse
      have hA_lb : ∀ e ∈ (if shouldBreakWord cfg first
            (if first then 0 else w.start - lastEnd) lineLen
            (trim w.text).length = true then
            [(⟨['\n'], w.start - 1/20, true⟩ : Ev)] else []) ++
          [(⟨trim w.text ++ [' '], w.start, false⟩ : Ev)],
          w.start - 1/20 ≤ e.time := by
        intro e he
        rcases List.mem_append.mp he with h | h
        · rw [brk_mem h]
        · rw [List.mem_singleton.mp h]
          show w.start - 1/20 ≤ w.start
          linarith
      constructor
      · exact chain'_append_of_bound w.endTime hA_chain hA_ub (ihr _).1 (ihr _).2
      · intro hf e he
        have hlb : lastEnd + 1/20 ≤ w.start := hhead hf w rfl
        rcases List.mem_append.mp he with h | h
        · have := hA_lb e h; linarith
        · have := (ihr _).2 e h; linarith

/-- C1 counterexample: two words with non-decreasing start times (0 and
0.5) whose spans overlap make the character timeline unsorted — the
trailing space of the first word (at its end, 1) lands after the second
word's first character (at its start, 0.5). -/
theorem C1_counterexample :
    List.Chain' (fun a b : Wd => a.start ≤ b.start)
      [(⟨['a','b'], 0, 1⟩ : Wd), ⟨['c','d'], 1/2, 3/2⟩] ∧
    ¬ List.Chain' (fun a b : Ev => a.time ≤ b.time)
        (generateCharacterTimings ⟨1/2, 50⟩
          [⟨['a','b'], 0, 1⟩, ⟨['c','d'], 1/2, 3/2⟩]) := by
  constructor
  · norm_num [List.chain'_cons]
  · have h : generateCharacterTimings ⟨1/2, 50⟩
        [⟨['a','b'], 0, 1⟩, ⟨['c','d'], 1/2, 3/2⟩] =
        [⟨['a'], 0, false⟩, ⟨['b'], 1/2, false⟩, ⟨[' '], 1, false⟩,
         ⟨['c'], 1/2, false⟩, ⟨['d'], 1, false⟩] := by
      norm_num +decide [generateCharacterTimings, goChar, shouldBreakChar, charEvts, trim,
        List.dropWhile, Char.isWhitespace]
    rw [h]
    norm_num [List.chain'_cons]

/-- C1 (amended): when each word is well-formed (`start ≤ end`) and
consecutive words are separated by at least the 0.05-second newline lead
(`end_i + 0.05 ≤ start_{i+1}` — in particular non-overlapping), the
timelines produced at character and at word granularity are sorted:
every event's timestamp, including the Newline events at
`word.start - 0.05`, is at most the next event's timestamp.  Merely
non-decreasing start times do not suffice (overlapping words, or a forced
length break after a gap shorter than 0.05, reorder the timeline). -/
theorem C1_timeline_monotonic :
    ∀ (cfg : KCfg) (ws : List Wd),
      (∀ w ∈ ws, w.start ≤ w.endTime) →
      List.Chain' (fun a b : Wd => a.endTime + 1/20 ≤ b.start) ws →
      List.Chain' (fun a b : Ev => a.time ≤ b.time)
        (generateCharacterTimings cfg ws) ∧
      List.Chain' (fun a b : Ev => a.time ≤ b.time)
        (generateWordTimings cfg ws) := by
  intro cfg ws hall hch
  constructor
  · exact (goChar_sorted_aux ws true 0 0 hall hch (fun h => absurd h (by simp))).1
  · exact (goWord_sorted_aux ws true 0 0 hall hch (fun h => absurd h (by simp))).1

/-- C1 witness: the Hello/world word list satisfies the spacing
hypotheses and its timelines are sorted. -/
theorem C1_timeline_monotonic_witness :
    List.Chain' (fun a b : Ev => a.time ≤ b.time)
      (generateCharacterTimings ⟨1/2, 50⟩
        [⟨['H','e','l','l','o'], 0, 1/2⟩, ⟨['w','o','r','l','d'], 3/5, 1⟩]) ∧
    List.Chain' (fun a b : Ev => a.time ≤ b.time)
      (generateWordTimings ⟨1/2, 50⟩
        [⟨['H','e','l','l','o'], 0, 1/2⟩, ⟨['w','o','r','l','d'], 3/5, 1⟩]) :=
  C1_timeline_monotonic ⟨1/2, 50⟩
    [⟨['H','e','l','l','o'], 0, 1/2⟩, ⟨['w','o','r','l','d'], 3/5, 1⟩]
    (by norm_num [List.forall_mem_cons]) (by norm_num [List.chain'_cons])
